import Mathlib

set_option maxHeartbeats 1000000
set_option linter.unusedVariables false
set_option linter.unusedTactic false
set_option linter.unreachableTactic false

/- Verification of the storage-engine kernel of the simpledb repository:
   file pages (src/file/page.rs), file manager (src/file/manager.rs),
   write-ahead log (src/log/manager.rs, src/log/iterator.rs), buffer pool
   (src/buffer/page.rs, src/buffer/manager.rs) and lock table
   (src/tx/concurrency/lock_table.rs).

   Machine integers are modelled as Int/Nat with explicit wrapping where
   the Rust code performs `as` casts.  Fallible operations (slice indexing
   that would panic, I/O that would fail) return Option. -/

namespace SimpleDb

/-- Cast semantics of Rust `v as usize` applied to an `i32` value `v`
(two's-complement reinterpretation into a 64-bit unsigned integer). -/
def usizeOfInt (v : Int) : Nat := (v % 18446744073709551616).toNat

/-- Cast semantics of Rust `n as i32` applied to a `usize` value `n`. -/
def i32OfNat (n : Nat) : Int :=
  let w := n % 4294967296
  if w < 2147483648 then (w : Int) else (w : Int) - 4294967296

/-- Big-endian byte encoding of an `i32` (`i32::to_be_bytes`). -/
def encodeI32 (v : Int) : List Nat :=
  let w := (v % 4294967296).toNat
  [w / 16777216 % 256, w / 65536 % 256, w / 256 % 256, w % 256]

/-- Big-endian decoding of four bytes into an `i32` (`i32::from_be_bytes`). -/
def decodeI32 (b0 b1 b2 b3 : Nat) : Int :=
  let w := b0 * 16777216 + b1 * 65536 + b2 * 256 + b3
  if w < 2147483648 then (w : Int) else (w : Int) - 4294967296

theorem usizeOfInt_ofNat (n : Nat) (h : n < 2147483648) :
    usizeOfInt (n : Int) = n := by
  unfold usizeOfInt
  rw [Int.emod_eq_of_lt (by positivity) (by exact_mod_cast by omega)]
  exact Int.toNat_natCast n

theorem i32OfNat_small (n : Nat) (h : n < 2147483648) : i32OfNat n = n := by
  unfold i32OfNat
  have h1 : n % 4294967296 = n := Nat.mod_eq_of_lt (by omega)
  simp only [h1]
  rw [if_pos (by exact_mod_cast h)]

theorem decode_encode (v : Int) (h1 : -2147483648 ≤ v) (h2 : v < 2147483648) :
    decodeI32 ((encodeI32 v).getD 0 0) ((encodeI32 v).getD 1 0)
      ((encodeI32 v).getD 2 0) ((encodeI32 v).getD 3 0) = v := by
  unfold encodeI32 decodeI32
  simp only [List.getD]
  have hmodlt : v % 4294967296 < 4294967296 := Int.emod_lt_of_pos v (by norm_num)
  have hmodge : 0 ≤ v % 4294967296 := Int.emod_nonneg v (by norm_num)
  set w : Nat := (v % 4294967296).toNat with hw
  have hwv : (w : Int) = v % 4294967296 := Int.toNat_of_nonneg hmodge
  have hwlt : w < 4294967296 := by omega
  have hrecon : w / 16777216 % 256 * 16777216 + w / 65536 % 256 * 65536 +
      w / 256 % 256 * 256 + w % 256 = w := by omega
  simp only [List.get?, List.getElem?_cons_zero, List.getElem?_cons_succ,
    Option.getD_some]
  rw [hrecon]
  rcases le_or_lt 0 v with hv | hv
  · have : v % 4294967296 = v := Int.emod_eq_of_lt hv (by omega)
    have hwveq : (w : Int) = v := by omega
    have hwsm : w < 2147483648 := by omega
    rw [if_pos (by exact_mod_cast hwsm)]
    exact hwveq
  · have : v % 4294967296 = v + 4294967296 := by
      have := Int.emod_emod_of_dvd v (dvd_refl (4294967296 : Int))
      omega
    have hwveq : (w : Int) = v + 4294967296 := by omega
    have hwbig : ¬ w < 2147483648 := by omega
    rw [if_neg (by exact_mod_cast hwbig)]
    omega

/-- A fixed-size byte buffer (`Page` in src/file/page.rs); `data i` is the
byte stored at offset `i`. -/
structure Page where
  size : Nat
  data : Nat → Nat

instance : Inhabited Page := ⟨⟨0, fun _ => 0⟩⟩

/-- `Page::new(block_size)`: a zero-filled page of the given size. -/
def Page.new (blockSize : Nat) : Page := ⟨blockSize, fun _ => 0⟩

/-- Overwrite the bytes at offsets `[start, start + bytes.length)`
(`copy_from_slice` into that range). -/
def Page.writeBytes (p : Page) (start : Nat) (bytes : List Nat) : Page :=
  ⟨p.size, fun i =>
    if start ≤ i ∧ i < start + bytes.length then bytes.getD (i - start) 0
    else p.data i⟩

/-- The bytes stored at offsets `[start, start + len)`. -/
def Page.readBytes (p : Page) (start len : Nat) : List Nat :=
  (List.range len).map (fun i => p.data (start + i))

/-- The `i32` stored big-endian at `offset` (no bounds check). -/
def Page.getIntT (p : Page) (offset : Nat) : Int :=
  decodeI32 (p.data offset) (p.data (offset + 1)) (p.data (offset + 2))
    (p.data (offset + 3))

/-- `Page::get_int`: `none` models the panic of the out-of-range slice
`&self.buffer[offset..offset+4]`. -/
def Page.get_int (p : Page) (offset : Nat) : Option Int :=
  if offset + 4 ≤ p.size then some (p.getIntT offset) else none

/-- Store an `i32` big-endian at `offset` (no bounds check). -/
def Page.setIntT (p : Page) (offset : Nat) (v : Int) : Page :=
  p.writeBytes offset (encodeI32 v)

/-- `Page::set_int`: `none` models the panic of the out-of-range slice. -/
def Page.set_int (p : Page) (offset : Nat) (v : Int) : Option Page :=
  if offset + 4 ≤ p.size then some (p.setIntT offset v) else none

/-- `Page::get_bytes`: read the 4-byte length, then that many bytes.
The stored length is reinterpreted with `as usize`; `none` models the
panics of the two slice accesses. -/
def Page.get_bytes (p : Page) (offset : Nat) : Option (List Nat) :=
  match p.get_int offset with
  | none => none
  | some len =>
    let l := usizeOfInt len
    if offset + 4 + l ≤ p.size then some (p.readBytes (offset + 4) l)
    else none

/-- `Page::set_bytes`: store `bytes.length as i32`, then the bytes.
`none` models the panics of the two slice accesses. -/
def Page.set_bytes (p : Page) (offset : Nat) (bytes : List Nat) :
    Option Page :=
  match p.set_int offset (i32OfNat bytes.length) with
  | none => none
  | some p1 =>
    if offset + 4 + bytes.length ≤ p.size then
      some (p1.writeBytes (offset + 4) bytes)
    else none

/-- Rust `str::from_utf8` validity test on a byte sequence, following the
standard UTF-8 well-formedness table (no overlong forms, no surrogates,
max U+10FFFF). -/
def validUtf8 : List Nat → Bool
  | [] => true
  | b :: rest =>
    if b ≤ 0x7F then validUtf8 rest
    else if 0xC2 ≤ b ∧ b ≤ 0xDF then
      match rest with
      | c1 :: r => (0x80 ≤ c1 && c1 ≤ 0xBF) && validUtf8 r
      | _ => false
    else if b = 0xE0 then
      match rest with
      | c1 :: c2 :: r =>
        (0xA0 ≤ c1 && c1 ≤ 0xBF) && (0x80 ≤ c2 && c2 ≤ 0xBF) && validUtf8 r
      | _ => false
    else if (0xE1 ≤ b ∧ b ≤ 0xEC) ∨ b = 0xEE ∨ b = 0xEF then
      match rest with
      | c1 :: c2 :: r =>
        (0x80 ≤ c1 && c1 ≤ 0xBF) && (0x80 ≤ c2 && c2 ≤ 0xBF) && validUtf8 r
      | _ => false
    else if b = 0xED then
      match rest with
      | c1 :: c2 :: r =>
        (0x80 ≤ c1 && c1 ≤ 0x9F) && (0x80 ≤ c2 && c2 ≤ 0xBF) && validUtf8 r
      | _ => false
    else if b = 0xF0 then
      match rest with
      | c1 :: c2 :: c3 :: r =>
        (0x90 ≤ c1 && c1 ≤ 0xBF) && (0x80 ≤ c2 && c2 ≤ 0xBF) &&
          (0x80 ≤ c3 && c3 ≤ 0xBF) && validUtf8 r
      | _ => false
    else if 0xF1 ≤ b ∧ b ≤ 0xF3 then
      match rest with
      | c1 :: c2 :: c3 :: r =>
        (0x80 ≤ c1 && c1 ≤ 0xBF) && (0x80 ≤ c2 && c2 ≤ 0xBF) &&
          (0x80 ≤ c3 && c3 ≤ 0xBF) && validUtf8 r
      | _ => false
    else if b = 0xF4 then
      match rest with
      | c1 :: c2 :: c3 :: r =>
        (0x80 ≤ c1 && c1 ≤ 0x8F) && (0x80 ≤ c2 && c2 ≤ 0xBF) &&
          (0x80 ≤ c3 && c3 ≤ 0xBF) && validUtf8 r
      | _ => false
    else false
termination_by l => l.length
decreasing_by all_goals simp_wf <;> omega

/-- `Page::get_string`: decode the stored bytes as UTF-8, with
`unwrap_or_default` turning a decoding failure into the empty string.
A Rust `String` is modelled by its UTF-8 byte sequence. -/
def Page.get_string (p : Page) (offset : Nat) : Option (List Nat) :=
  (p.get_bytes offset).map (fun bytes => if validUtf8 bytes then bytes else [])

/-- `Page::set_string`: store the string's UTF-8 bytes. -/
def Page.set_string (p : Page) (offset : Nat) (s : List Nat) : Option Page :=
  p.set_bytes offset s

theorem Page.writeBytes_size (p : Page) (start : Nat) (bytes : List Nat) :
    (p.writeBytes start bytes).size = p.size := rfl

theorem Page.setIntT_size (p : Page) (o : Nat) (v : Int) :
    (p.setIntT o v).size = p.size := rfl

theorem encodeI32_length (v : Int) : (encodeI32 v).length = 4 := by
  simp [encodeI32]

theorem Page.data_writeBytes_out (p : Page) (start : Nat) (bytes : List Nat)
    (i : Nat) (h : i < start ∨ start + bytes.length ≤ i) :
    (p.writeBytes start bytes).data i = p.data i := by
  simp only [writeBytes]
  rw [if_neg (by omega)]

theorem Page.data_writeBytes_in (p : Page) (start : Nat) (bytes : List Nat)
    (i : Nat) (h1 : start ≤ i) (h2 : i < start + bytes.length) :
    (p.writeBytes start bytes).data i = bytes.getD (i - start) 0 := by
  simp only [writeBytes]
  rw [if_pos (by omega)]

theorem Page.data_setIntT_out (p : Page) (o : Nat) (v : Int) (i : Nat)
    (h : i < o ∨ o + 4 ≤ i) : (p.setIntT o v).data i = p.data i := by
  unfold setIntT
  exact p.data_writeBytes_out o (encodeI32 v) i (by rw [encodeI32_length]; omega)

theorem Page.readBytes_length (p : Page) (start len : Nat) :
    (p.readBytes start len).length = len := by
  simp [readBytes]

theorem Page.readBytes_congr (p q : Page) (start len : Nat)
    (h : ∀ i, start ≤ i → i < start + len → q.data i = p.data i) :
    q.readBytes start len = p.readBytes start len := by
  unfold readBytes
  refine List.map_congr_left (fun i hi => ?_)
  rw [List.mem_range] at hi
  exact h (start + i) (by omega) (by omega)

theorem Page.getIntT_congr (p q : Page) (o : Nat)
    (h : ∀ i, o ≤ i → i < o + 4 → q.data i = p.data i) :
    q.getIntT o = p.getIntT o := by
  unfold getIntT
  rw [h o (by omega) (by omega), h (o + 1) (by omega) (by omega),
    h (o + 2) (by omega) (by omega), h (o + 3) (by omega) (by omega)]

theorem Page.readBytes_writeBytes (p : Page) (start : Nat) (bytes : List Nat) :
    (p.writeBytes start bytes).readBytes start bytes.length = bytes := by
  apply List.ext_getElem
  · simp [readBytes_length]
  · intro i h1 h2
    rw [readBytes_length] at h1
    unfold readBytes
    rw [List.getElem_map, List.getElem_range]
    rw [p.data_writeBytes_in start bytes (start + i) (by omega) (by omega)]
    simp only [Nat.add_sub_cancel_left]
    exact List.getD_eq_getElem bytes 0 h1

theorem Page.getIntT_setIntT (p : Page) (o : Nat) (v : Int)
    (h1 : -2147483648 ≤ v) (h2 : v < 2147483648) :
    (p.setIntT o v).getIntT o = v := by
  unfold setIntT getIntT
  have hlen : (encodeI32 v).length = 4 := encodeI32_length v
  rw [p.data_writeBytes_in o (encodeI32 v) o (by omega) (by omega),
    p.data_writeBytes_in o (encodeI32 v) (o + 1) (by omega) (by omega),
    p.data_writeBytes_in o (encodeI32 v) (o + 2) (by omega) (by omega),
    p.data_writeBytes_in o (encodeI32 v) (o + 3) (by omega) (by omega)]
  simp only [Nat.sub_self, Nat.add_sub_cancel_left]
  exact decode_encode v h1 h2

theorem Page.getIntT_natCast_nonneg (p : Page) (o : Nat) (pos : Nat)
    (h : p.getIntT o = (pos : Int)) : 0 ≤ p.getIntT o := by
  rw [h]; positivity

/-- A `BlockId` (src/file/block.rs): file name and block number. -/
abbrev BId := String × Nat

/-- The on-disk state of the data files seen through `FileManager`:
each (file, block-number) pair maps to the page stored there, or `none`
if that block has never been written (reading it fails). -/
def Files := BId → Option Page

/-- `FileManager::write`: store the page at the block's position
(the write is synced before returning). -/
def writeF (files : Files) (blk : BId) (p : Page) : Files :=
  fun b => if b = blk then some p else files b

/-- `FileManager::read`: copy exactly `target.size` bytes of the stored
block into the target page; fails if the block is absent. -/
def readF (files : Files) (blk : BId) (target : Page) : Option Page :=
  (files blk).map (fun stored =>
    ⟨target.size, fun i => if i < target.size then stored.data i else target.data i⟩)

/-- Read a stored log block into a fresh page of size `bs`
(`Page::new(block_size)` followed by `FileManager::read`). -/
def readPage (bs : Nat) (stored : Page) : Page :=
  ⟨bs, fun i => if i < bs then stored.data i else 0⟩

/-- `LogManager` state (src/log/manager.rs).  The log file is a single
file, modelled as the list of its blocks (`disk`). -/
structure LogMgr where
  bs : Nat
  disk : List Page
  logpage : Page
  currentBlk : Nat
  latestLsn : Int
  lastSavedLsn : Int

/-- `LogManager::flush_internal`: write the tail page to its block and
record that everything up to `latest_lsn` is on disk. -/
def LogMgr.flushInternal (st : LogMgr) : LogMgr :=
  { st with disk := st.disk.set st.currentBlk st.logpage,
            lastSavedLsn := st.latestLsn }

/-- `LogManager::flush(lsn)`. -/
def LogMgr.flush (st : LogMgr) (lsn : Int) : LogMgr :=
  if st.lastSavedLsn ≤ lsn then st.flushInternal else st

/-- `LogManager::append_new_block`: `FileManager::append` a zeroed block,
set the in-memory page's boundary to `block_size`, write the page to the
new block.  Returns the new block number, the updated page and disk. -/
def appendNewBlock (bs : Nat) (disk : List Page) (logpage : Page) :
    Option (Nat × Page × List Page) :=
  let blk := disk.length
  let disk1 := disk ++ [Page.new bs]
  match logpage.set_int 0 (i32OfNat bs) with
  | none => none
  | some page1 => some (blk, page1, disk1.set blk page1)

/-- `LogManager::append(logrec)`: returns the updated state and the new
LSN; `none` models a panic from an out-of-range page access. -/
def LogMgr.append (st : LogMgr) (logrec : List Nat) : Option (LogMgr × Int) :=
  match st.logpage.get_int 0 with
  | none => none
  | some boundary =>
    let bytesNeeded : Int := i32OfNat (logrec.length + 4)
    if boundary - bytesNeeded < 4 then
      let st1 := st.flushInternal
      match appendNewBlock st1.bs st1.disk st1.logpage with
      | none => none
      | some (blk, page1, disk2) =>
        match page1.get_int 0 with
        | none => none
        | some boundary2 =>
          let recpos := boundary2 - bytesNeeded
          match page1.set_bytes (usizeOfInt recpos) logrec with
          | none => none
          | some page2 =>
            match page2.set_int 0 recpos with
            | none => none
            | some page3 =>
              some ({ st1 with
                      disk := disk2, logpage := page3,
                      currentBlk := blk, latestLsn := st1.latestLsn + 1 },
                    st1.latestLsn + 1)
    else
      let recpos := boundary - bytesNeeded
      match st.logpage.set_bytes (usizeOfInt recpos) logrec with
      | none => none
      | some page2 =>
        match page2.set_int 0 recpos with
        | none => none
        | some page3 =>
          some ({ st with logpage := page3, latestLsn := st.latestLsn + 1 },
                st.latestLsn + 1)

/-- `LogManager::new` on a fresh (empty) log file: append an initial
block whose boundary is `block_size`. -/
def LogMgr.init (bs : Nat) : Option LogMgr :=
  match appendNewBlock bs [] (Page.new bs) with
  | none => none
  | some (blk, page1, disk) =>
    some { bs := bs, disk := disk, logpage := page1, currentBlk := blk,
           latestLsn := 0, lastSavedLsn := 0 }

/-- The in-block loop of `LogIterator::next`: read records at increasing
positions until the cursor reaches `block_size`. -/
def iterBlockGo (bs : Nat) (p : Page) (pos : Nat) : Option (List (List Nat)) :=
  if bs ≤ pos then some []
  else
    match p.get_bytes pos with
    | none => none
    | some r =>
      match iterBlockGo bs p (pos + 4 + r.length) with
      | none => none
      | some l => some (r :: l)
termination_by bs - pos
decreasing_by simp_wf; omega

/-- The full run of `LogIterator` starting at block `blk`: each block is
read from disk into a fresh page (`move_to_block`), scanned from its
boundary, and the iterator then moves to the block one lower, stopping
after block 0. -/
def iterBlocks (bs : Nat) (disk : List Page) (blk : Nat) :
    Option (List (List Nat)) :=
  match disk[blk]? with
  | none => none
  | some stored =>
    let p := readPage bs stored
    match p.get_int 0 with
    | none => none
    | some b =>
      match iterBlockGo bs p (usizeOfInt b) with
      | none => none
      | some recs =>
        match blk with
        | 0 => some recs
        | k + 1 =>
          match iterBlocks bs disk k with
          | none => none
          | some rest => some (recs ++ rest)

/-- `LogManager::iter`: flush the tail page first, then run the
iterator from the tail block backward; returns the post-flush state and
the yielded records in order. -/
def LogMgr.iter (st : LogMgr) : Option (LogMgr × List (List Nat)) :=
  let st1 := st.flushInternal
  match iterBlocks st1.bs st1.disk st1.currentBlk with
  | none => none
  | some recs => some (st1, recs)

/-- `LogManager::append` over a whole list of records, in order. -/
def appendAll (st : LogMgr) : List (List Nat) → Option LogMgr
  | [] => some st
  | r :: rs =>
    match st.append r with
    | none => none
    | some (st1, _) => appendAll st1 rs

theorem listGetD_set_self {α : Type} (l : List α) (n : Nat) (a d : α)
    (h : n < l.length) : (l.set n a).getD n d = a := by
  induction l generalizing n with
  | nil => simp at h
  | cons x xs ih =>
    cases n with
    | zero => rfl
    | succ k => exact ih k (by simpa using h)

theorem listGetD_set_ne {α : Type} (l : List α) (n i : Nat) (a d : α)
    (h : i ≠ n) : (l.set n a).getD i d = l.getD i d := by
  induction l generalizing n i with
  | nil => rfl
  | cons x xs ih =>
    cases n with
    | zero => cases i with
      | zero => exact absurd rfl h
      | succ j => rfl
    | succ k => cases i with
      | zero => rfl
      | succ j => exact ih k j (fun hc => h (by omega))

theorem listGetD_append_lt {α : Type} (l l' : List α) (i : Nat) (d : α)
    (h : i < l.length) : (l ++ l').getD i d = l.getD i d := by
  induction l generalizing i with
  | nil => simp at h
  | cons x xs ih =>
    cases i with
    | zero => rfl
    | succ k => exact ih k (by simpa using h)

theorem listGetD_append_len {α : Type} (l : List α) (a d : α) :
    (l ++ [a]).getD l.length d = a := by
  induction l with
  | nil => rfl
  | cons x xs ih => exact ih

theorem listSet_append_len {α : Type} (l : List α) (a b : α) :
    (l ++ [a]).set l.length b = l ++ [b] := by
  induction l with
  | nil => rfl
  | cons x xs ih => simp [ih]

theorem i32OfNat_range (n : Nat) :
    -2147483648 ≤ i32OfNat n ∧ i32OfNat n < 2147483648 := by
  unfold i32OfNat
  have h : n % 4294967296 < 4294967296 := Nat.mod_lt n (by norm_num)
  simp only []
  constructor
  · split <;> push_cast <;> omega
  · split <;> push_cast <;> omega

theorem get_int_of_le (p : Page) (o : Nat) (h : o + 4 ≤ p.size) :
    p.get_int o = some (p.getIntT o) := by
  unfold Page.get_int
  rw [if_pos h]

theorem set_int_spec (p : Page) (o : Nat) (v : Int)
    (h1 : o + 4 ≤ p.size) (h2 : -2147483648 ≤ v) (h3 : v < 2147483648) :
    ∃ q, p.set_int o v = some q ∧ q.size = p.size ∧ q.getIntT o = v ∧
      ∀ i, i < o ∨ o + 4 ≤ i → q.data i = p.data i := by
  refine ⟨p.setIntT o v, ?_, rfl, p.getIntT_setIntT o v h2 h3, ?_⟩
  · unfold Page.set_int
    rw [if_pos h1]
  · intro i hi
    exact p.data_setIntT_out o v i hi

theorem set_bytes_spec (p : Page) (o : Nat) (bytes : List Nat)
    (h1 : o + 4 ≤ p.size) (h2 : o + 4 + bytes.length ≤ p.size)
    (h3 : bytes.length < 2147483648) :
    ∃ q, p.set_bytes o bytes = some q ∧ q.size = p.size ∧
      q.getIntT o = (bytes.length : Int) ∧
      q.readBytes (o + 4) bytes.length = bytes ∧
      ∀ i, i < o ∨ o + 4 + bytes.length ≤ i → q.data i = p.data i := by
  refine ⟨(p.setIntT o (i32OfNat bytes.length)).writeBytes (o + 4) bytes,
    ?_, rfl, ?_, ?_, ?_⟩
  · unfold Page.set_bytes Page.set_int
    rw [if_pos h1]
    simp only
    rw [if_pos h2]
  · have hout : ∀ i, o ≤ i → i < o + 4 →
        ((p.setIntT o (i32OfNat bytes.length)).writeBytes (o + 4) bytes).data i =
          (p.setIntT o (i32OfNat bytes.length)).data i := by
      intro i hi1 hi2
      exact Page.data_writeBytes_out _ _ _ i (Or.inl hi2)
    rw [Page.getIntT_congr _ _ o hout,
      p.getIntT_setIntT o (i32OfNat bytes.length) (i32OfNat_range _).1
        (i32OfNat_range _).2]
    exact i32OfNat_small bytes.length h3
  · exact Page.readBytes_writeBytes _ (o + 4) bytes
  · intro i hi
    rw [Page.data_writeBytes_out _ _ _ i (by omega),
      p.data_setIntT_out o _ i (by omega)]

/-- The byte layout of one log block from position `pos` on: the records
`recs` (most recent first) are stored length-prefixed one after another,
ending exactly at the block size `bs`. -/
def encFrom (bs : Nat) (p : Page) : Nat → List (List Nat) → Prop
  | pos, [] => pos = bs
  | pos, r :: rest =>
    pos + 4 + r.length ≤ bs ∧
    p.getIntT pos = (r.length : Int) ∧
    p.readBytes (pos + 4) r.length = r ∧
    encFrom bs p (pos + 4 + r.length) rest

/-- A log block of size `bs` holding exactly the records `recs` (most
recent first): the boundary field at offset 0 points at the start of the
most recent record. -/
def blockRecsOK (bs : Nat) (p : Page) (recs : List (List Nat)) : Prop :=
  p.size = bs ∧ ∃ pos : Nat, 4 ≤ pos ∧ pos ≤ bs ∧
    p.getIntT 0 = (pos : Int) ∧ encFrom bs p pos recs

theorem append_run (st : LogMgr) (r : List Nat) (pos0 : Nat)
    (hsz : st.logpage.size = st.bs) (h8 : 8 ≤ st.bs)
    (h31 : st.bs < 2147483648)
    (hbnd : st.logpage.getIntT 0 = (pos0 : Int))
    (hpos4 : 4 ≤ pos0) (hposbs : pos0 ≤ st.bs)
    (hfit : r.length + 8 ≤ st.bs) :
    (r.length + 8 ≤ pos0 →
      ∃ q3, st.append r = some ({ st with
          logpage := q3, latestLsn := st.latestLsn + 1 }, st.latestLsn + 1) ∧
        q3.size = st.bs ∧
        q3.getIntT 0 = ((pos0 - (r.length + 4) : Nat) : Int) ∧
        q3.getIntT (pos0 - (r.length + 4)) = (r.length : Int) ∧
        q3.readBytes (pos0 - (r.length + 4) + 4) r.length = r ∧
        ∀ i, pos0 ≤ i → q3.data i = st.logpage.data i) ∧
    (pos0 < r.length + 8 →
      ∃ q3, st.append r = some ({ st with
          disk := st.disk.set st.currentBlk st.logpage ++
            [st.logpage.setIntT 0 (i32OfNat st.bs)],
          logpage := q3, currentBlk := st.disk.length,
          latestLsn := st.latestLsn + 1,
          lastSavedLsn := st.latestLsn }, st.latestLsn + 1) ∧
        q3.size = st.bs ∧
        q3.getIntT 0 = ((st.bs - (r.length + 4) : Nat) : Int) ∧
        q3.getIntT (st.bs - (r.length + 4)) = (r.length : Int) ∧
        q3.readBytes (st.bs - (r.length + 4) + 4) r.length = r) := by
  have hlen31 : r.length + 4 < 2147483648 := by omega
  have hbn : i32OfNat (r.length + 4) = ((r.length + 4 : Nat) : Int) :=
    i32OfNat_small _ hlen31
  have hget : st.logpage.get_int 0 = some ((pos0 : Nat) : Int) := by
    rw [get_int_of_le _ _ (by omega), hbnd]
  constructor
  · -- the record fits in the current tail block
    intro hge
    have hkey : (pos0 - (r.length + 4)) + 4 + r.length = pos0 := by omega
    have hpN4 : 4 ≤ pos0 - (r.length + 4) := by omega
    obtain ⟨q2, hq2eq, hq2sz, hq2len, hq2bytes, hq2out⟩ :=
      set_bytes_spec st.logpage (pos0 - (r.length + 4)) r
        (by omega) (by omega) (by omega)
    obtain ⟨q3, hq3eq, hq3sz, hq3bnd, hq3out⟩ :=
      set_int_spec q2 0 ((pos0 - (r.length + 4) : Nat) : Int)
        (by omega) (by omega) (by omega)
    have hrp : ((pos0 : Nat) : Int) - i32OfNat (r.length + 4) =
        ((pos0 - (r.length + 4) : Nat) : Int) := by
      rw [hbn]; push_cast; omega
    have hC : ¬ (((pos0 : Nat) : Int) - i32OfNat (r.length + 4) < 4) := by
      rw [hbn]; push_cast; omega
    refine ⟨q3, ?_, by omega, hq3bnd, ?_, ?_, ?_⟩
    · unfold LogMgr.append
      simp only [hget]
      rw [if_neg hC]
      simp only [hrp, usizeOfInt_ofNat (pos0 - (r.length + 4)) (by omega),
        hq2eq, hq3eq]
    · rw [Page.getIntT_congr q2 q3 (pos0 - (r.length + 4))
        (fun i h1 h2 => hq3out i (Or.inr (by omega)))]
      exact hq2len
    · rw [Page.readBytes_congr q2 q3 (pos0 - (r.length + 4) + 4) r.length
        (fun i h1 h2 => hq3out i (Or.inr (by omega)))]
      exact hq2bytes
    · intro i hi
      rw [hq3out i (Or.inr (by omega)), hq2out i (Or.inr (by omega))]
  · -- the record does not fit: roll over to a fresh block
    intro hlt
    have hpN4 : 4 ≤ st.bs - (r.length + 4) := by omega
    have hset1 : st.logpage.set_int 0 (i32OfNat st.bs) =
        some (st.logpage.setIntT 0 (i32OfNat st.bs)) := by
      unfold Page.set_int
      rw [if_pos (by omega)]
    have hp1sz : (st.logpage.setIntT 0 (i32OfNat st.bs)).size = st.bs := by
      rw [Page.setIntT_size]; exact hsz
    have hp1bnd : (st.logpage.setIntT 0 (i32OfNat st.bs)).getIntT 0 =
        ((st.bs : Nat) : Int) := by
      rw [st.logpage.getIntT_setIntT 0 (i32OfNat st.bs) (i32OfNat_range _).1
        (i32OfNat_range _).2]
      exact i32OfNat_small st.bs h31
    obtain ⟨q2, hq2eq, hq2sz, hq2len, hq2bytes, hq2out⟩ :=
      set_bytes_spec (st.logpage.setIntT 0 (i32OfNat st.bs))
        (st.bs - (r.length + 4)) r (by omega) (by omega) (by omega)
    obtain ⟨q3, hq3eq, hq3sz, hq3bnd, hq3out⟩ :=
      set_int_spec q2 0 ((st.bs - (r.length + 4) : Nat) : Int)
        (by omega) (by omega) (by omega)
    have hrp : ((st.bs : Nat) : Int) - i32OfNat (r.length + 4) =
        ((st.bs - (r.length + 4) : Nat) : Int) := by
      rw [hbn]; push_cast; omega
    have hC : ((pos0 : Nat) : Int) - i32OfNat (r.length + 4) < 4 := by
      rw [hbn]; push_cast; omega
    have hget1 : (st.logpage.setIntT 0 (i32OfNat st.bs)).get_int 0 =
        some ((st.bs : Nat) : Int) := by
      rw [get_int_of_le _ _ (by omega), hp1bnd]
    have hdisk2 : (st.disk.set st.currentBlk st.logpage ++
        [Page.new st.bs]).set st.disk.length
          (st.logpage.setIntT 0 (i32OfNat st.bs)) =
        st.disk.set st.currentBlk st.logpage ++
          [st.logpage.setIntT 0 (i32OfNat st.bs)] := by
      have h := listSet_append_len (st.disk.set st.currentBlk st.logpage)
        (Page.new st.bs) (st.logpage.setIntT 0 (i32OfNat st.bs))
      rwa [List.length_set] at h
    refine ⟨q3, ?_, by omega, hq3bnd, ?_, ?_⟩
    · unfold LogMgr.append
      simp only [hget]
      rw [if_pos hC]
      simp only [LogMgr.flushInternal, appendNewBlock, hset1,
        listSet_append_len, hget1, hrp,
        usizeOfInt_ofNat (st.bs - (r.length + 4)) (by omega), hq2eq, hq3eq,
        List.length_set, hdisk2]
    · rw [Page.getIntT_congr q2 q3 (st.bs - (r.length + 4))
        (fun i h1 h2 => hq3out i (Or.inr (by omega)))]
      exact hq2len
    · rw [Page.readBytes_congr q2 q3 (st.bs - (r.length + 4) + 4) r.length
        (fun i h1 h2 => hq3out i (Or.inr (by omega)))]
      exact hq2bytes

theorem encFrom_congr (bs : Nat) (p q : Page) (pos : Nat)
    (recs : List (List Nat))
    (hagree : ∀ i, pos ≤ i → i < bs → q.data i = p.data i)
    (henc : encFrom bs p pos recs) : encFrom bs q pos recs := by
  induction recs generalizing pos with
  | nil => exact henc
  | cons r rest ih =>
    obtain ⟨hle, hlen, hbytes, htail⟩ := henc
    refine ⟨hle, ?_, ?_, ?_⟩
    · rw [Page.getIntT_congr p q pos (fun i h1 h2 => hagree i h1 (by omega))]
      exact hlen
    · rw [Page.readBytes_congr p q (pos + 4) r.length
        (fun i h1 h2 => hagree i (by omega) (by omega))]
      exact hbytes
    · exact ih (pos + 4 + r.length) (fun i h1 h2 => hagree i (by omega) h2) htail

theorem iterBlockGo_of_encFrom (bs : Nat) (p : Page) (pos : Nat)
    (recs : List (List Nat)) (hsize : p.size = bs) (hbs : bs < 2147483648)
    (henc : encFrom bs p pos recs) :
    iterBlockGo bs p pos = some recs := by
  induction recs generalizing pos with
  | nil =>
    have h : pos = bs := henc
    rw [iterBlockGo, if_pos (le_of_eq h.symm)]
  | cons r rest ih =>
    obtain ⟨hle, hlen, hbytes, htail⟩ := henc
    have hgb : p.get_bytes pos = some r := by
      unfold Page.get_bytes
      rw [get_int_of_le p pos (by omega), hlen]
      simp only [usizeOfInt_ofNat r.length (by omega)]
      rw [if_pos (by omega), hbytes]
    rw [iterBlockGo, if_neg (by omega)]
    simp only [hgb, ih (pos + 4 + r.length) htail]

theorem readPage_size (bs : Nat) (p : Page) : (readPage bs p).size = bs := rfl

theorem readPage_data_lt (bs : Nat) (p : Page) (i : Nat) (h : i < bs) :
    (readPage bs p).data i = p.data i := by
  simp [readPage, h]

theorem blockRecsOK_readPage (bs : Nat) (p : Page) (recs : List (List Nat))
    (h4 : 4 ≤ bs) (hok : blockRecsOK bs p recs) :
    blockRecsOK bs (readPage bs p) recs := by
  obtain ⟨hsz, pos, h1, h2, h3, henc⟩ := hok
  refine ⟨rfl, pos, h1, h2, ?_, ?_⟩
  · rw [Page.getIntT_congr p (readPage bs p) 0
      (fun i hi1 hi2 => readPage_data_lt bs p i (by omega))]
    exact h3
  · exact encFrom_congr bs p (readPage bs p) pos recs
      (fun i hi1 hi2 => readPage_data_lt bs p i hi2) henc

/-- The records yielded by the iterator from block `blk` down to block 0,
given the per-block record lists (indexed by block number). -/
def expectedOut (recss : List (List (List Nat))) : Nat → List (List Nat)
  | 0 => recss.getD 0 []
  | k + 1 => recss.getD (k + 1) [] ++ expectedOut recss k

theorem iterBlocks_ok (bs : Nat) (disk : List Page)
    (recss : List (List (List Nat))) (hbs4 : 4 ≤ bs) (hbs : bs < 2147483648)
    (blk : Nat) (hblk : blk < disk.length)
    (hall : ∀ i, i ≤ blk →
      blockRecsOK bs (disk.getD i default) (recss.getD i [])) :
    iterBlocks bs disk blk = some (expectedOut recss blk) := by
  induction blk with
  | zero =>
    obtain ⟨hsz, pos, hp1, hp2, hp3, hp4⟩ :=
      blockRecsOK_readPage bs _ _ hbs4 (hall 0 (le_refl 0))
    have hd : disk[0]? = some (disk.getD 0 default) := by
      rw [List.getElem?_eq_getElem hblk, List.getD_eq_getElem disk default hblk]
    have hgi : (readPage bs (disk.getD 0 default)).get_int 0 =
        some ((pos : Nat) : Int) := by
      rw [get_int_of_le _ _ (by rw [readPage_size]; omega), hp3]
    unfold iterBlocks
    simp only [hd, hgi, usizeOfInt_ofNat pos (by omega),
      iterBlockGo_of_encFrom bs _ pos _ (readPage_size _ _) hbs hp4]
    rfl
  | succ k ih =>
    obtain ⟨hsz, pos, hp1, hp2, hp3, hp4⟩ :=
      blockRecsOK_readPage bs _ _ hbs4 (hall (k + 1) (le_refl _))
    have hd : disk[k + 1]? = some (disk.getD (k + 1) default) := by
      rw [List.getElem?_eq_getElem hblk,
        List.getD_eq_getElem disk default hblk]
    have hgi : (readPage bs (disk.getD (k + 1) default)).get_int 0 =
        some ((pos : Nat) : Int) := by
      rw [get_int_of_le _ _ (by rw [readPage_size]; omega), hp3]
    have hrest := ih (by omega) (fun i hi => hall i (by omega))
    unfold iterBlocks
    simp only [hd, hgi, usizeOfInt_ofNat pos (by omega),
      iterBlockGo_of_encFrom bs _ pos _ (readPage_size _ _) hbs hp4, hrest]
    rfl

theorem reverse_flatten_last {α : Type} (l : List (List α)) (n : Nat)
    (h : l.length = n + 1) :
    l.reverse.flatten = l.getD n [] ++ (l.take n).reverse.flatten := by
  induction n generalizing l with
  | zero =>
    match l, h with
    | [a], _ => simp [List.getD]
  | succ k ih =>
    match l, h with
    | a :: l', h =>
      have h' : l'.length = k + 1 := by simpa using h
      simp only [List.reverse_cons, List.flatten_append, ih l' h',
        List.take_succ_cons, List.getD_cons_succ]
      simp [List.append_assoc]

theorem reverse_flatten_set_last {α : Type} (l : List (List α)) (n : Nat)
    (x : List α) (h : l.length = n + 1) :
    (l.set n x).reverse.flatten = x ++ (l.take n).reverse.flatten := by
  induction n generalizing l with
  | zero =>
    match l, h with
    | [a], _ => simp
  | succ k ih =>
    match l, h with
    | a :: l', h =>
      have h' : l'.length = k + 1 := by simpa using h
      simp only [List.set_cons_succ, List.reverse_cons, List.flatten_append,
        ih l' h', List.take_succ_cons]
      simp [List.append_assoc]

/-- Reachability invariant of the log manager: each block `i` of the log
file (block `currentBlk` being the in-memory tail page) holds exactly the
records `recss[i]`, most recent first. -/
structure LogInv (st : LogMgr) (recss : List (List (List Nat))) : Prop where
  bs8 : 8 ≤ st.bs
  bs31 : st.bs < 2147483648
  diskLen : st.disk.length = st.currentBlk + 1
  recssLen : recss.length = st.currentBlk + 1
  diskOK : ∀ i, i < st.currentBlk →
    blockRecsOK st.bs (st.disk.getD i default) (recss.getD i [])
  tailOK : blockRecsOK st.bs st.logpage (recss.getD st.currentBlk [])

theorem logInv_step (st : LogMgr) (recss : List (List (List Nat)))
    (r : List Nat) (hinv : LogInv st recss) (hfit : r.length + 8 ≤ st.bs) :
    ∃ st1 recss1, st.append r = some (st1, st.latestLsn + 1) ∧
      LogInv st1 recss1 ∧ st1.bs = st.bs ∧
      recss1.reverse.flatten = r :: recss.reverse.flatten := by
  obtain ⟨hsz, pos0, hpos4, hposbs, hbnd, henc⟩ := hinv.tailOK
  have hrun := append_run st r pos0 hsz hinv.bs8 hinv.bs31 hbnd hpos4 hposbs hfit
  have hcur : st.currentBlk < recss.length := by
    rw [hinv.recssLen]; omega
  by_cases hc : r.length + 8 ≤ pos0
  · -- the record fits in the tail block
    obtain ⟨q3, heq, hq3sz, hq3bnd, hq3len, hq3bytes, hq3pres⟩ := hrun.1 hc
    have hkey : pos0 - (r.length + 4) + 4 + r.length = pos0 := by omega
    have htail : blockRecsOK st.bs q3
        ((recss.set st.currentBlk (r :: recss.getD st.currentBlk [])).getD
          st.currentBlk []) := by
      rw [listGetD_set_self recss st.currentBlk _ _ hcur]
      refine ⟨hq3sz, pos0 - (r.length + 4), by omega, by omega, hq3bnd,
        by omega, hq3len, hq3bytes, ?_⟩
      rw [hkey]
      exact encFrom_congr st.bs st.logpage q3 pos0 _
        (fun i hi1 hi2 => hq3pres i hi1) henc
    refine ⟨{ st with logpage := q3, latestLsn := st.latestLsn + 1 },
      recss.set st.currentBlk (r :: recss.getD st.currentBlk []),
      heq, ?_, rfl, ?_⟩
    · refine ⟨hinv.bs8, hinv.bs31, hinv.diskLen, ?_, ?_, htail⟩
      · show (recss.set st.currentBlk
            (r :: recss.getD st.currentBlk [])).length = st.currentBlk + 1
        rw [List.length_set]
        exact hinv.recssLen
      · intro i hi
        have hi' : i < st.currentBlk := hi
        show blockRecsOK st.bs (st.disk.getD i default)
          ((recss.set st.currentBlk
            (r :: recss.getD st.currentBlk [])).getD i [])
        rw [listGetD_set_ne recss st.currentBlk i _ _ (Nat.ne_of_lt hi')]
        exact hinv.diskOK i hi'
    · rw [reverse_flatten_set_last recss st.currentBlk _ hinv.recssLen,
        reverse_flatten_last recss st.currentBlk hinv.recssLen]
      simp
  · -- rollover to a fresh tail block
    obtain ⟨q3, heq, hq3sz, hq3bnd, hq3len, hq3bytes⟩ := hrun.2 (by omega)
    have hkey : st.bs - (r.length + 4) + 4 + r.length = st.bs := by omega
    have hdl : st.disk.length = recss.length := by
      rw [hinv.diskLen, hinv.recssLen]
    have htail : blockRecsOK st.bs q3
        ((recss ++ [[r]]).getD st.disk.length []) := by
      rw [hdl, listGetD_append_len]
      exact ⟨hq3sz, st.bs - (r.length + 4), by omega, by omega, hq3bnd,
        by omega, hq3len, hq3bytes, by rw [hkey]; exact rfl⟩
    refine ⟨{ st with
        disk := st.disk.set st.currentBlk st.logpage ++
          [st.logpage.setIntT 0 (i32OfNat st.bs)],
        logpage := q3, currentBlk := st.disk.length,
        latestLsn := st.latestLsn + 1, lastSavedLsn := st.latestLsn },
      recss ++ [[r]], heq, ?_, rfl, ?_⟩
    · refine ⟨hinv.bs8, hinv.bs31, ?_, ?_, ?_, htail⟩
      · show (st.disk.set st.currentBlk st.logpage ++
            [st.logpage.setIntT 0 (i32OfNat st.bs)]).length = st.disk.length + 1
        simp [List.length_set]
      · show (recss ++ [[r]]).length = st.disk.length + 1
        simp [hdl]
      · intro i hi
        have hi' : i < st.disk.length := hi
        show blockRecsOK st.bs
          ((st.disk.set st.currentBlk st.logpage ++
            [st.logpage.setIntT 0 (i32OfNat st.bs)]).getD i default)
          ((recss ++ [[r]]).getD i [])
        rw [listGetD_append_lt _ _ i _ (by rw [List.length_set]; exact hi'),
          listGetD_append_lt _ _ i _ (by omega)]
        rcases Nat.lt_or_ge i st.currentBlk with hlt2 | hge2
        · rw [listGetD_set_ne st.disk st.currentBlk i _ _ (Nat.ne_of_lt hlt2)]
          exact hinv.diskOK i hlt2
        · have hieq : i = st.currentBlk := by
            have := hinv.diskLen
            omega
          rw [hieq, listGetD_set_self st.disk st.currentBlk _ _
            (by rw [hinv.diskLen]; omega)]
          exact hinv.tailOK
    · simp

theorem appendAll_inv (rs : List (List Nat)) (st : LogMgr)
    (recss : List (List (List Nat))) (hinv : LogInv st recss)
    (hfit : ∀ r ∈ rs, r.length + 8 ≤ st.bs) :
    ∃ st1 recss1, appendAll st rs = some st1 ∧ LogInv st1 recss1 ∧
      st1.bs = st.bs ∧
      recss1.reverse.flatten = rs.reverse ++ recss.reverse.flatten := by
  induction rs generalizing st recss with
  | nil => exact ⟨st, recss, rfl, hinv, rfl, by simp⟩
  | cons r rest ih =>
    obtain ⟨stm, recssm, happ, hinvm, hbs, hflat⟩ :=
      logInv_step st recss r hinv (hfit r (by simp))
    obtain ⟨st1, recss1, happ2, hinv1, hbs1, hflat1⟩ :=
      ih stm recssm hinvm (fun x hx => by rw [hbs]; exact hfit x (by simp [hx]))
    refine ⟨st1, recss1, ?_, hinv1, by rw [hbs1, hbs], ?_⟩
    · unfold appendAll
      simp only [happ]
      exact happ2
    · rw [hflat1, hflat]
      simp [List.append_assoc]

theorem listGetD_eq_getElemQ {α : Type} (l : List α) (n : Nat) (d : α) :
    l.getD n d = (l[n]?).getD d := List.getD_eq_getElem?_getD l n d

theorem expectedOut_take (recss : List (List (List Nat))) (blk : Nat) :
    expectedOut recss blk = ((recss.take (blk + 1)).reverse).flatten := by
  induction blk with
  | zero =>
    cases recss with
    | nil => simp [expectedOut, List.getD]
    | cons a l => simp [expectedOut, List.getD]
  | succ k ih =>
    rw [expectedOut, ih, listGetD_eq_getElemQ]
    conv_rhs => rw [List.take_succ]
    rw [List.reverse_append, List.flatten_append]
    cases h : recss[k + 1]? with
    | none => simp
    | some a => simp

theorem expectedOut_full (recss : List (List (List Nat))) (n : Nat)
    (h : recss.length = n + 1) :
    expectedOut recss n = recss.reverse.flatten := by
  rw [expectedOut_take, List.take_of_length_le (by omega)]

theorem iter_of_inv (st : LogMgr) (recss : List (List (List Nat)))
    (hinv : LogInv st recss) :
    st.iter = some (st.flushInternal, recss.reverse.flatten) := by
  have hall : ∀ i, i ≤ st.currentBlk →
      blockRecsOK st.bs ((st.disk.set st.currentBlk st.logpage).getD i default)
        (recss.getD i []) := by
    intro i hi
    rcases Nat.lt_or_ge i st.currentBlk with hlt | hge
    · rw [listGetD_set_ne st.disk st.currentBlk i _ _ (by omega)]
      exact hinv.diskOK i hlt
    · have hieq : i = st.currentBlk := by omega
      rw [hieq, listGetD_set_self st.disk st.currentBlk _ _
        (by rw [hinv.diskLen]; omega)]
      exact hinv.tailOK
  have hblk : st.currentBlk < (st.disk.set st.currentBlk st.logpage).length := by
    rw [List.length_set, hinv.diskLen]; omega
  have hib := iterBlocks_ok st.bs (st.disk.set st.currentBlk st.logpage) recss
    (by have := hinv.bs8; omega) hinv.bs31 st.currentBlk hblk hall
  unfold LogMgr.iter
  simp only [LogMgr.flushInternal, hib, expectedOut_full recss st.currentBlk
    hinv.recssLen]

/-- The initial tail page: a zero page whose boundary is `block_size`. -/
def page0 (bs : Nat) : Page := (Page.new bs).setIntT 0 (i32OfNat bs)

/-- The state of `LogManager::new` on a fresh log file. -/
def initSt (bs : Nat) : LogMgr := ⟨bs, [page0 bs], page0 bs, 0, 0, 0⟩

theorem init_eq (bs : Nat) (h4 : 4 ≤ bs) : LogMgr.init bs = some (initSt bs) := by
  have hset : (Page.new bs).set_int 0 (i32OfNat bs) = some (page0 bs) := by
    unfold Page.set_int page0
    rw [if_pos (by simp [Page.new]; omega)]
  unfold LogMgr.init appendNewBlock
  simp only [hset]
  rfl

theorem logInv_init (bs : Nat) (h8 : 8 ≤ bs) (h31 : bs < 2147483648) :
    LogInv (initSt bs) [[]] := by
  refine ⟨h8, h31, rfl, rfl, fun i hi => absurd hi (Nat.not_lt_zero i), ?_⟩
  show blockRecsOK bs (page0 bs) []
  refine ⟨?_, bs, by omega, le_refl bs, ?_, rfl⟩
  · show ((Page.new bs).setIntT 0 (i32OfNat bs)).size = bs
    rw [Page.setIntT_size]
    rfl
  · show (page0 bs).getIntT 0 = ((bs : Nat) : Int)
    unfold page0
    rw [(Page.new bs).getIntT_setIntT 0 _ (i32OfNat_range bs).1
      (i32OfNat_range bs).2]
    exact i32OfNat_small bs h31

/-- C1: starting from a fresh log, appending any sequence of records
(each fitting in a block, even across block boundaries) and then calling
`iter` first flushes the tail page and yields exactly the appended
records, most recent first, ending with the first record of block 0. -/
theorem C1_log_iter_reverse (bs : Nat) (rs : List (List Nat)) (h8 : 8 ≤ bs)
    (h31 : bs < 2147483648) (hfit : ∀ r ∈ rs, r.length + 8 ≤ bs) :
    ∃ st1, LogMgr.init bs = some (initSt bs) ∧
      appendAll (initSt bs) rs = some st1 ∧
      st1.iter = some (st1.flushInternal, rs.reverse) := by
  obtain ⟨st1, recss1, happ, hinv1, hbs1, hflat⟩ :=
    appendAll_inv rs (initSt bs) [[]] (logInv_init bs h8 h31)
      (fun r hr => hfit r hr)
  refine ⟨st1, init_eq bs (by omega), happ, ?_⟩
  rw [iter_of_inv st1 recss1 hinv1, hflat]
  simp

theorem C1_log_iter_reverse_witness :
    ∃ st1, LogMgr.init 20 = some (initSt 20) ∧
      appendAll (initSt 20) [[1, 2], [3]] = some st1 ∧
      st1.iter = some (st1.flushInternal, [[3], [1, 2]]) := by
  have h := C1_log_iter_reverse 20 [[1, 2], [3]] (by norm_num) (by norm_num)
    (by intro r hr; fin_cases hr <;> norm_num)
  simpa using h

/-- C5: `append` computes `bytes_needed = len + 4`; when
`boundary - bytes_needed < 4` it first flushes the tail page, appends a
fresh block initialized with boundary `block_size` and makes it the tail;
in either case it writes the length-prefixed bytes at
`recpos = boundary - bytes_needed`, overwrites the boundary field with
`recpos`, increments `latest_lsn` and returns it, so returned LSNs are
strictly increasing across appends. -/
theorem C5_append_spec (st : LogMgr) (r : List Nat) (pos0 : Nat)
    (hsz : st.logpage.size = st.bs) (h8 : 8 ≤ st.bs)
    (h31 : st.bs < 2147483648)
    (hbnd : st.logpage.getIntT 0 = (pos0 : Int)) (hpos4 : 4 ≤ pos0)
    (hposbs : pos0 ≤ st.bs) (hfit : r.length + 8 ≤ st.bs) :
    ∃ st1, st.append r = some (st1, st.latestLsn + 1) ∧
      st1.latestLsn = st.latestLsn + 1 ∧
      (pos0 < r.length + 8 →
        st1.lastSavedLsn = st.latestLsn ∧
        st1.currentBlk = st.disk.length ∧
        st1.disk = st.disk.set st.currentBlk st.logpage ++
          [st.logpage.setIntT 0 (i32OfNat st.bs)] ∧
        st1.logpage.getIntT 0 = ((st.bs - (r.length + 4) : Nat) : Int) ∧
        st1.logpage.getIntT (st.bs - (r.length + 4)) = (r.length : Int) ∧
        st1.logpage.readBytes (st.bs - (r.length + 4) + 4) r.length = r) ∧
      (r.length + 8 ≤ pos0 →
        st1.disk = st.disk ∧ st1.currentBlk = st.currentBlk ∧
        st1.lastSavedLsn = st.lastSavedLsn ∧
        st1.logpage.getIntT 0 = ((pos0 - (r.length + 4) : Nat) : Int) ∧
        st1.logpage.getIntT (pos0 - (r.length + 4)) = (r.length : Int) ∧
        st1.logpage.readBytes (pos0 - (r.length + 4) + 4) r.length = r) := by
  have hrun := append_run st r pos0 hsz h8 h31 hbnd hpos4 hposbs hfit
  by_cases hc : r.length + 8 ≤ pos0
  · obtain ⟨q3, heq, hq3sz, hq3bnd, hq3len, hq3bytes, _⟩ := hrun.1 hc
    exact ⟨_, heq, rfl, fun h => absurd hc (by omega),
      fun _ => ⟨rfl, rfl, rfl, hq3bnd, hq3len, hq3bytes⟩⟩
  · obtain ⟨q3, heq, hq3sz, hq3bnd, hq3len, hq3bytes⟩ := hrun.2 (by omega)
    exact ⟨_, heq, rfl, fun _ => ⟨rfl, rfl, rfl, hq3bnd, hq3len, hq3bytes⟩,
      fun h => absurd h (by omega)⟩

theorem C5_append_spec_witness :
    ∃ st1, (initSt 20).append [7] = some (st1, (initSt 20).latestLsn + 1) ∧
      st1.latestLsn = (initSt 20).latestLsn + 1 ∧
      (20 < [7].length + 8 →
        st1.lastSavedLsn = (initSt 20).latestLsn ∧
        st1.currentBlk = (initSt 20).disk.length ∧
        st1.disk = (initSt 20).disk.set (initSt 20).currentBlk
          (initSt 20).logpage ++
          [(initSt 20).logpage.setIntT 0 (i32OfNat (initSt 20).bs)] ∧
        st1.logpage.getIntT 0 =
          (((initSt 20).bs - ([7].length + 4) : Nat) : Int) ∧
        st1.logpage.getIntT ((initSt 20).bs - ([7].length + 4)) =
          ([7].length : Int) ∧
        st1.logpage.readBytes ((initSt 20).bs - ([7].length + 4) + 4)
          [7].length = [7]) ∧
      ([7].length + 8 ≤ 20 →
        st1.disk = (initSt 20).disk ∧
        st1.currentBlk = (initSt 20).currentBlk ∧
        st1.lastSavedLsn = (initSt 20).lastSavedLsn ∧
        st1.logpage.getIntT 0 = ((20 - ([7].length + 4) : Nat) : Int) ∧
        st1.logpage.getIntT (20 - ([7].length + 4)) = ([7].length : Int) ∧
        st1.logpage.readBytes (20 - ([7].length + 4) + 4) [7].length = [7]) :=
  C5_append_spec (initSt 20) [7] 20 rfl (by norm_num [initSt])
    (by norm_num [initSt]) (by rfl) (by norm_num [initSt])
    (by norm_num [initSt]) (by norm_num [initSt])

/-- C6: `flush(lsn)` with `lsn ≥ last_saved_lsn` writes the tail page to
the current block and sets `last_saved_lsn = latest_lsn`; with
`lsn < last_saved_lsn` it leaves the whole log-manager state and the
on-disk log file unchanged. -/
theorem C6_flush_spec (st : LogMgr) (lsn : Int) :
    (st.lastSavedLsn ≤ lsn →
      st.flush lsn = { st with
                       disk := st.disk.set st.currentBlk st.logpage,
                       lastSavedLsn := st.latestLsn }) ∧
    (lsn < st.lastSavedLsn → st.flush lsn = st) := by
  constructor
  · intro h
    rw [LogMgr.flush, if_pos h]
    rfl
  · intro h
    rw [LogMgr.flush, if_neg (by omega)]

/-- A small concrete log-manager state used by witnesses. -/
def logA : LogMgr := ⟨16, [Page.new 16], Page.new 16, 0, 5, 3⟩

theorem C6_flush_spec_witness :
    (logA.flush 7 = { logA with
                      disk := logA.disk.set logA.currentBlk logA.logpage,
                      lastSavedLsn := logA.latestLsn }) ∧
    logA.flush 1 = logA :=
  ⟨(C6_flush_spec logA 7).1 (by norm_num [logA]),
   (C6_flush_spec logA 1).2 (by norm_num [logA])⟩

/-- C9: in every log state reachable by appends of records that satisfy
`len + 8 ≤ block_size`, a further `append` of such a record performs only
in-bounds page accesses (it returns `some`, never reaching the panic
branch of `Page::set_bytes`); and there is a record with
`len + 8 > block_size` for which `append` does reach an out-of-bounds
page access (`none`). -/
theorem C9_append_total :
    (∀ bs prev st r, 8 ≤ bs → bs < 2147483648 →
      (∀ x ∈ prev, x.length + 8 ≤ bs) →
      appendAll (initSt bs) prev = some st →
      r.length + 8 ≤ bs → ∃ out, st.append r = some out) ∧
    (∃ (st : LogMgr) (r : List Nat),
      st.bs < r.length + 8 ∧ st.append r = none) := by
  constructor
  · intro bs prev st r h8 h31 hprev happ hr
    obtain ⟨st1, recss1, happ2, hinv1, hbs1, _⟩ :=
      appendAll_inv prev (initSt bs) [[]] (logInv_init bs h8 h31) hprev
    rw [happ] at happ2
    obtain rfl := Option.some.inj happ2
    obtain ⟨st2, recss2, heq, -, -, -⟩ :=
      logInv_step st recss1 r hinv1 (by rw [hbs1]; exact hr)
    exact ⟨(st2, st.latestLsn + 1), heq⟩
  · refine ⟨initSt 16, List.replicate 16 0, by norm_num [initSt], ?_⟩
    rfl

theorem C9_append_total_witness :
    ∃ out, (initSt 16).append [5] = some out :=
  C9_append_total.1 16 [] (initSt 16) [5] (by norm_num) (by norm_num)
    (by intro x hx; simp at hx) rfl (by norm_num)

theorem readF_writeF (files : Files) (blk : BId) (p1 : Page) (bs : Nat) :
    readF (writeF files blk p1) blk (Page.new bs) =
      some ⟨bs, fun i => if i < bs then p1.data i else 0⟩ := by
  unfold readF writeF Page.new
  simp

theorem roundtrip_bytes (bs : Nat) (hbs : bs < 2147483648) (files : Files)
    (blk : BId) (p : Page) (hsz : p.size = bs) (o : Nat) (bytes : List Nat)
    (h3 : o + 4 + bytes.length ≤ bs) :
    ∃ p1 p', p.set_bytes o bytes = some p1 ∧
      readF (writeF files blk p1) blk (Page.new bs) = some p' ∧
      p'.get_bytes o = some bytes := by
  obtain ⟨p1, hset, hp1sz, hp1len, hp1bytes, -⟩ :=
    set_bytes_spec p o bytes (by omega) (by omega) (by omega)
  refine ⟨p1, ⟨bs, fun i => if i < bs then p1.data i else 0⟩, hset,
    readF_writeF files blk p1 bs, ?_⟩
  have hagree : ∀ i, o ≤ i → i < bs →
      (⟨bs, fun i => if i < bs then p1.data i else 0⟩ : Page).data i =
        p1.data i := by
    intro i hi1 hi2
    show (if i < bs then p1.data i else 0) = p1.data i
    rw [if_pos hi2]
  have hlen : (⟨bs, fun i => if i < bs then p1.data i else 0⟩ : Page).getIntT
      o = (bytes.length : Int) := by
    rw [Page.getIntT_congr p1 _ o (fun i hi1 hi2 => hagree i hi1 (by omega))]
    exact hp1len
  have hgi : (⟨bs, fun i => if i < bs then p1.data i else 0⟩ : Page).get_int
      o = some ((bytes.length : Nat) : Int) := by
    rw [get_int_of_le _ _ (by show o + 4 ≤ bs; omega), hlen]
  unfold Page.get_bytes
  simp only [hgi, usizeOfInt_ofNat bytes.length (by omega)]
  rw [if_pos (by show o + 4 + bytes.length ≤ bs; omega),
    Page.readBytes_congr p1 _ (o + 4) bytes.length
      (fun i hi1 hi2 => hagree i (by omega) (by omega)), hp1bytes]

/-- C7: for a page of the block size, storing an i32 / byte array /
UTF-8 string at an in-bounds offset, writing the page to a block through
the file manager, reading the block back into a fresh page, and reading
the same offset returns exactly the stored value. -/
theorem C7_roundtrip (bs : Nat) (hbs : bs < 2147483648) (files : Files)
    (blk : BId) (p : Page) (hsz : p.size = bs) (o : Nat) :
    (∀ v : Int, -2147483648 ≤ v → v < 2147483648 → o + 4 ≤ bs →
      ∃ p1 p', p.set_int o v = some p1 ∧
        readF (writeF files blk p1) blk (Page.new bs) = some p' ∧
        p'.get_int o = some v) ∧
    (∀ bytes : List Nat, o + 4 + bytes.length ≤ bs →
      ∃ p1 p', p.set_bytes o bytes = some p1 ∧
        readF (writeF files blk p1) blk (Page.new bs) = some p' ∧
        p'.get_bytes o = some bytes) ∧
    (∀ s : List Nat, validUtf8 s = true → o + 4 + s.length ≤ bs →
      ∃ p1 p', p.set_string o s = some p1 ∧
        readF (writeF files blk p1) blk (Page.new bs) = some p' ∧
        p'.get_string o = some s) := by
  refine ⟨?_, fun bytes h3 => roundtrip_bytes bs hbs files blk p hsz o bytes h3, ?_⟩
  · intro v h1 h2 h3
    obtain ⟨p1, hset, hp1sz, hp1get, -⟩ := set_int_spec p o v (by omega) h1 h2
    refine ⟨p1, ⟨bs, fun i => if i < bs then p1.data i else 0⟩, hset,
      readF_writeF files blk p1 bs, ?_⟩
    rw [get_int_of_le _ _ (by show o + 4 ≤ bs; omega),
      Page.getIntT_congr p1 _ o (fun i hi1 hi2 => by
        show (if i < bs then p1.data i else 0) = p1.data i
        rw [if_pos (by omega)]), hp1get]
  · intro s hvalid h3
    obtain ⟨p1, p', hset, hread, hget⟩ :=
      roundtrip_bytes bs hbs files blk p hsz o s h3
    refine ⟨p1, p', hset, hread, ?_⟩
    unfold Page.get_string
    rw [hget]
    simp [hvalid]

theorem C7_roundtrip_witness :
    ∃ p1 p', (Page.new 16).set_int 2 (-5) = some p1 ∧
      readF (writeF (fun _ => none) ("f", 0) p1) ("f", 0) (Page.new 16) =
        some p' ∧
      p'.get_int 2 = some (-5) :=
  (C7_roundtrip 16 (by norm_num) (fun _ => none) ("f", 0) (Page.new 16) rfl
    2).1 (-5) (by norm_num) (by norm_num) (by norm_num)

/-- C10: whenever the length-prefixed byte field at `offset` lies within
the page bounds, `get_string` is total and never surfaces a decoding
error: it returns the decoded bytes when they are valid UTF-8 and the
empty string otherwise. -/
theorem C10_get_string_total (p : Page) (o : Nat) (len : Nat)
    (hlen : p.getIntT o = (len : Int)) (hlen31 : len < 2147483648)
    (hb : o + 4 + len ≤ p.size) :
    ∃ s, p.get_string o = some s ∧
      (validUtf8 (p.readBytes (o + 4) len) = true →
        s = p.readBytes (o + 4) len) ∧
      (validUtf8 (p.readBytes (o + 4) len) = false → s = []) := by
  have hgi : p.get_int o = some ((len : Nat) : Int) := by
    rw [get_int_of_le _ _ (by omega), hlen]
  unfold Page.get_string Page.get_bytes
  simp only [hgi, usizeOfInt_ofNat len hlen31]
  rw [if_pos hb]
  refine ⟨if validUtf8 (p.readBytes (o + 4) len) then
    p.readBytes (o + 4) len else [], rfl, ?_, ?_⟩
  · intro h
    rw [if_pos h]
  · intro h
    rw [if_neg (by simp [h])]

/-- A concrete page holding the length-prefixed field `[0xFF, 65]`
(invalid UTF-8) at offset 0. -/
def cPage : Page :=
  ⟨12, fun i => if i = 3 then 2 else if i = 4 then 255 else
    if i = 5 then 65 else 0⟩

theorem C10_get_string_total_witness :
    ∃ s, cPage.get_string 0 = some s ∧
      (validUtf8 (cPage.readBytes 4 2) = true → s = cPage.readBytes 4 2) ∧
      (validUtf8 (cPage.readBytes 4 2) = false → s = []) :=
  C10_get_string_total cPage 0 2 (by decide) (by norm_num) (by norm_num [cPage])

/-- A buffer slot (`BufferPage` in src/buffer/page.rs). -/
structure BPage where
  contents : Page
  block : Option BId
  pins : Nat
  txnum : Int
  lsn : Int

instance : Inhabited BPage := ⟨⟨default, none, 0, -1, -1⟩⟩

/-- `BufferPage::new`. -/
def BPage.new (bs : Nat) : BPage := ⟨Page.new bs, none, 0, -1, -1⟩

/-- `BufferPage::pin`. -/
def BPage.pin (b : BPage) : BPage := { b with pins := b.pins + 1 }

/-- `BufferPage::unpin`: decrement the pin count only when positive
(the guard makes the `u32` subtraction safe). -/
def BPage.unpin (b : BPage) : BPage :=
  if b.pins > 0 then { b with pins := b.pins - 1 } else b

/-- `BufferPage::is_pinned`. -/
def BPage.isPinned (b : BPage) : Bool := b.pins > 0

/-- C8: `unpin` never underflows the pin count: with `pins > 0` it
decrements by one, with `pins == 0` it leaves the count at 0 (saturation),
so the underflowing branch of the `u32` subtraction is unreachable. -/
theorem C8_unpin_saturates (b : BPage) :
    (0 < b.pins → b.unpin.pins = b.pins - 1) ∧
    (b.pins = 0 → b.unpin.pins = 0) := by
  constructor <;> intro h <;> simp [BPage.unpin, h]

theorem C8_unpin_saturates_witness :
    ((BPage.new 8).pin.unpin.pins = (BPage.new 8).pin.pins - 1) ∧
    (BPage.new 8).unpin.pins = 0 :=
  ⟨(C8_unpin_saturates ((BPage.new 8).pin)).1 (by norm_num [BPage.new, BPage.pin]),
   (C8_unpin_saturates (BPage.new 8)).2 rfl⟩

/-- The externally visible I/O events of a buffer-slot flush; the `slot`
field tags which pool slot performed the event. -/
inductive FlushEv where
  | logFlush (slot : Nat) (lsn : Int)
  | pageWrite (slot : Nat) (blk : BId)
deriving DecidableEq

/-- `BufferPage::flush` (src/buffer/page.rs): if the slot was modified
(`txnum ≥ 0`), force the log up to the slot's `lsn`, then write the page
to its block, then mark the slot clean.  Returns the updated slot, log
manager, files, and the I/O events in execution order. -/
def BPage.flushT (i : Nat) (b : BPage) (lm : LogMgr) (files : Files) :
    BPage × LogMgr × Files × List FlushEv :=
  if 0 ≤ b.txnum then
    match b.block with
    | some blk =>
      ({ b with txnum := -1 }, lm.flush b.lsn, writeF files blk b.contents,
        [FlushEv.logFlush i b.lsn, FlushEv.pageWrite i blk])
    | none => ({ b with txnum := -1 }, lm.flush b.lsn, files,
        [FlushEv.logFlush i b.lsn])
  else (b, lm, files, [])

/-- `BufferManager::flush_all(txnum)`: walk the pool in order and flush
every slot whose `modifying_txn` equals `txnum`; slot `i` of the walk is
tagged `i` in the trace. -/
def flushAllGo (tx : Int) : List BPage → Nat → LogMgr → Files →
    List BPage × LogMgr × Files × List FlushEv
  | [], _, lm, files => ([], lm, files, [])
  | b :: rest, i, lm, files =>
    let step := if b.txnum = tx then b.flushT i lm files else (b, lm, files, [])
    let next := flushAllGo tx rest (i + 1) step.2.1 step.2.2.1
    (step.1 :: next.1, next.2.1, next.2.2.1, step.2.2.2 ++ next.2.2.2)

def flushAll (tx : Int) (pool : List BPage) (lm : LogMgr) (files : Files) :
    List BPage × LogMgr × Files × List FlushEv :=
  flushAllGo tx pool 0 lm files

theorem flushAllGo_cons_trace (tx : Int) (b : BPage) (rest : List BPage)
    (i0 : Nat) (lm : LogMgr) (files : Files) :
    (flushAllGo tx (b :: rest) i0 lm files).2.2.2 =
      (if b.txnum = tx then b.flushT i0 lm files
        else (b, lm, files, [])).2.2.2 ++
      (flushAllGo tx rest (i0 + 1)
        (if b.txnum = tx then b.flushT i0 lm files
          else (b, lm, files, [])).2.1
        (if b.txnum = tx then b.flushT i0 lm files
          else (b, lm, files, [])).2.2.1).2.2.2 := rfl

theorem trace_shift (evs t : List FlushEv) (j : Nat) (e : FlushEv)
    (hj : t[j]? = some e) : (evs ++ t)[evs.length + j]? = some e := by
  rw [List.getElem?_append_right (by omega), Nat.add_sub_cancel_left]
  exact hj

theorem flushAllGo_trace (tx : Int) (htx : 0 ≤ tx) (pool : List BPage)
    (i0 : Nat) (lm : LogMgr) (files : Files) (i : Nat) (blk : BId)
    (hi : i < pool.length) (hitx : (pool.getD i default).txnum = tx)
    (hblk : (pool.getD i default).block = some blk) :
    ∃ j k : Nat, j < k ∧
      (flushAllGo tx pool i0 lm files).2.2.2[j]? =
        some (FlushEv.logFlush (i0 + i) (pool.getD i default).lsn) ∧
      (flushAllGo tx pool i0 lm files).2.2.2[k]? =
        some (FlushEv.pageWrite (i0 + i) blk) := by
  induction pool generalizing i0 lm files i with
  | nil => simp at hi
  | cons b rest ih =>
    cases i with
    | zero =>
      have hb : b.txnum = tx := hitx
      have hblk' : b.block = some blk := hblk
      have hstep : (b.flushT i0 lm files).2.2.2 =
          [FlushEv.logFlush i0 b.lsn, FlushEv.pageWrite i0 blk] := by
        unfold BPage.flushT
        rw [if_pos (by omega), hblk']
      refine ⟨0, 1, by omega, ?_, ?_⟩ <;>
        simp [flushAllGo, hb, hstep]
    | succ n =>
      have hi' : n < rest.length := by simpa using hi
      obtain ⟨j, k, hjk, hj, hk⟩ := ih (i0 + 1)
        (if b.txnum = tx then b.flushT i0 lm files else (b, lm, files, [])).2.1
        (if b.txnum = tx then b.flushT i0 lm files else (b, lm, files, [])).2.2.1
        n hi' hitx hblk
      have hsh : i0 + 1 + n = i0 + (n + 1) := by omega
      rw [hsh] at hj hk
      refine ⟨(if b.txnum = tx then b.flushT i0 lm files
          else (b, lm, files, [])).2.2.2.length + j,
        (if b.txnum = tx then b.flushT i0 lm files
          else (b, lm, files, [])).2.2.2.length + k, by omega, ?_, ?_⟩
      · rw [flushAllGo_cons_trace]
        exact trace_shift _ _ j _ hj
      · rw [flushAllGo_cons_trace]
        exact trace_shift _ _ k _ hk

/-- C2: a slot flush with `modifying_txn ≥ 0` forces the log up to the
slot's `lsn` strictly before the page write and afterwards sets
`modifying_txn = -1`; with `modifying_txn < 0` it is a no-op.  Hence on
return of `flush_all(txnum)` every slot that entered with
`modifying_txn == txnum` had its log-flush event strictly before its
page-write event. -/
theorem C2_flush_wal_order :
    (∀ (i : Nat) (b : BPage) (lm : LogMgr) (files : Files) (blk : BId),
      0 ≤ b.txnum → b.block = some blk →
      b.flushT i lm files = ({ b with txnum := -1 }, lm.flush b.lsn,
        writeF files blk b.contents,
        [FlushEv.logFlush i b.lsn, FlushEv.pageWrite i blk])) ∧
    (∀ (i : Nat) (b : BPage) (lm : LogMgr) (files : Files),
      0 ≤ b.txnum → b.block = none →
      b.flushT i lm files = ({ b with txnum := -1 }, lm.flush b.lsn, files,
        [FlushEv.logFlush i b.lsn])) ∧
    (∀ (i : Nat) (b : BPage) (lm : LogMgr) (files : Files),
      b.txnum < 0 → b.flushT i lm files = (b, lm, files, [])) ∧
    (∀ (tx : Int) (pool : List BPage) (lm : LogMgr) (files : Files)
      (i : Nat) (blk : BId), 0 ≤ tx →
      i < pool.length → (pool.getD i default).txnum = tx →
      (pool.getD i default).block = some blk →
      ∃ j k : Nat, j < k ∧
        (flushAll tx pool lm files).2.2.2[j]? =
          some (FlushEv.logFlush i (pool.getD i default).lsn) ∧
        (flushAll tx pool lm files).2.2.2[k]? =
          some (FlushEv.pageWrite i blk)) := by
  refine ⟨?_, ?_, ?_, ?_⟩
  · intro i b lm files blk h hblk
    unfold BPage.flushT
    rw [if_pos h, hblk]
  · intro i b lm files h hblk
    unfold BPage.flushT
    rw [if_pos h, hblk]
  · intro i b lm files h
    unfold BPage.flushT
    rw [if_neg (by omega)]
  · intro tx pool lm files i blk htx hi hitx hblk
    have h := flushAllGo_trace tx htx pool 0 lm files i blk hi hitx hblk
    simpa [flushAll] using h

/-- A concrete dirty buffer slot used by witnesses. -/
def slotA : BPage := ⟨Page.new 16, some ("t", 1), 0, 3, 7⟩

/-- `BufferPage::flush` without the event trace. -/
def BPage.flush (b : BPage) (lm : LogMgr) (files : Files) :
    BPage × LogMgr × Files :=
  ((b.flushT 0 lm files).1, (b.flushT 0 lm files).2.1,
    (b.flushT 0 lm files).2.2.1)

/-- `BufferPage::assign_to_block`: flush the current contents, point the
slot at the new block, read it from disk, reset the pin count.  `false`
marks a failed disk read (the `?` early return), after which the pin
count is untouched but the partial updates persist. -/
def BPage.assignToBlock (b : BPage) (blk : BId) (lm : LogMgr)
    (files : Files) : Bool × BPage × LogMgr × Files :=
  match readF (b.flush lm files).2.2 blk
      { (b.flush lm files).1 with block := some blk }.contents with
  | none => (false, { (b.flush lm files).1 with block := some blk },
      (b.flush lm files).2.1, (b.flush lm files).2.2)
  | some pg => (true,
      { (b.flush lm files).1 with
        block := some blk, contents := pg, pins := 0 },
      (b.flush lm files).2.1, (b.flush lm files).2.2)

/-- First index satisfying the predicate (`iter().find_map` with a
running index over the pool). -/
def findIdxP (p : BPage → Bool) : List BPage → Option Nat
  | [] => none
  | b :: rest => if p b then some 0 else (findIdxP p rest).map (· + 1)

/-- `BufferManager::find_existing_buffer`. -/
def findExisting (pool : List BPage) (blk : BId) : Option Nat :=
  findIdxP (fun b => b.block == some blk) pool

/-- `BufferManager::choose_unpinned_buffer` (naive first-fit). -/
def chooseUnpinned (pool : List BPage) : Option Nat :=
  findIdxP (fun b => !b.isPinned) pool

/-- `BufferManager` state: pool slots, the `num_available` counter, and
the log manager / data files the slots flush to and read from. -/
structure BufMgrSt where
  pool : List BPage
  numAvailable : Int
  lm : LogMgr
  files : Files

/-- `BufferManager::new`: `num_buffs` empty slots, all available. -/
def BufMgrSt.new (bs : Nat) (numBuffs : Nat) (lm : LogMgr) (files : Files) :
    BufMgrSt :=
  ⟨List.replicate numBuffs (BPage.new bs), numBuffs, lm, files⟩

/-- `BufferManager::unpin`: slot-level unpin, then increment
`num_available` if the slot is no longer pinned. -/
def BufMgrSt.unpin (m : BufMgrSt) (i : Nat) : BufMgrSt :=
  let b1 := (m.pool.getD i default).unpin
  let m1 := { m with pool := m.pool.set i b1 }
  if b1.isPinned then m1 else { m1 with numAvailable := m1.numAvailable + 1 }

/-- One `BufferManager::try_to_pin` attempt: use an existing buffer for
the block if any (decrementing `num_available` when it was unpinned),
otherwise reassign the first unpinned buffer; returns the new state and
the pinned slot index, `none` when no buffer is available or the disk
read failed (whose partial state persists, as after the Rust `?`). -/
def BufMgrSt.tryToPin (m : BufMgrSt) (blk : BId) : BufMgrSt × Option Nat :=
  match findExisting m.pool blk with
  | some i =>
    let b := m.pool.getD i default
    let avail := if b.isPinned then m.numAvailable else m.numAvailable - 1
    ({ m with pool := m.pool.set i b.pin, numAvailable := avail }, some i)
  | none =>
    match chooseUnpinned m.pool with
    | none => (m, none)
    | some i =>
      let b := m.pool.getD i default
      let a := b.assignToBlock blk m.lm m.files
      if a.1 then
        ({ m with
           pool := m.pool.set i a.2.1.pin,
           numAvailable := m.numAvailable - 1,
           lm := a.2.2.1, files := a.2.2.2 }, some i)
      else
        ({ m with
           pool := m.pool.set i a.2.1,
           lm := a.2.2.1, files := a.2.2.2 }, none)

/-- The atomic state transitions of the buffer manager under its public
API: one `try_to_pin` attempt (a `pin` call is a retry loop of these,
whether it returns the slot, times out, or swallows an I/O error) and
one `unpin` call on slot `i`. -/
inductive BufOp where
  | pinOp (blk : BId)
  | unpinOp (i : Nat)

def applyOp (m : BufMgrSt) : BufOp → BufMgrSt
  | .pinOp blk => (m.tryToPin blk).1
  | .unpinOp i => m.unpin i

def applyOps (m : BufMgrSt) : List BufOp → BufMgrSt
  | [] => m
  | op :: rest => applyOps (applyOp m op) rest

/-- The number of pool slots whose pin count is 0. -/
def unpinnedCount (pool : List BPage) : Nat :=
  pool.countP (fun b => b.pins == 0)

/-- The invariant claimed for `available()`. -/
def availInv (m : BufMgrSt) : Prop :=
  m.numAvailable = (unpinnedCount m.pool : Int)

theorem unpinnedCount_set (pool : List BPage) (i : Nat) (b' : BPage)
    (h : i < pool.length) :
    (unpinnedCount (pool.set i b') : Int) = (unpinnedCount pool : Int)
      - (if (pool.getD i default).pins = 0 then 1 else 0)
      + (if b'.pins = 0 then 1 else 0) := by
  induction pool generalizing i with
  | nil => simp at h
  | cons a l ih =>
    cases i with
    | zero =>
      show (unpinnedCount (b' :: l) : Int) = _
      simp only [unpinnedCount, List.countP_cons, List.getD_cons_zero]
      by_cases hb : b'.pins = 0 <;> by_cases ha : a.pins = 0 <;>
        simp [hb, ha] <;> push_cast <;> omega
    | succ n =>
      have hn : n < l.length := by simpa using h
      have hrec := ih n hn
      show (unpinnedCount (a :: l.set n b') : Int) = _
      simp only [unpinnedCount, List.countP_cons, List.getD_cons_succ] at hrec ⊢
      by_cases hb : b'.pins = 0 <;>
        by_cases hg : (l.getD n default).pins = 0 <;>
        by_cases ha : a.pins = 0 <;>
        simp [hb, hg, ha] at hrec ⊢ <;> push_cast at hrec ⊢ <;> omega

theorem findIdxP_spec (p : BPage → Bool) (l : List BPage) (i : Nat)
    (h : findIdxP p l = some i) :
    i < l.length ∧ p (l.getD i default) = true := by
  induction l generalizing i with
  | nil => simp [findIdxP] at h
  | cons a rest ih =>
    rw [findIdxP] at h
    by_cases hpa : p a
    · rw [if_pos hpa] at h
      obtain rfl : (0 : Nat) = i := Option.some.inj h
      exact ⟨by simp, hpa⟩
    · rw [if_neg hpa] at h
      cases hr : findIdxP p rest with
      | none => rw [hr] at h; simp at h
      | some j =>
        rw [hr] at h
        have hij : i = j + 1 := by simpa using h.symm
        subst hij
        obtain ⟨h1, h2⟩ := ih j hr
        exact ⟨by simpa using h1, h2⟩

theorem flushT_pins (i : Nat) (b : BPage) (lm : LogMgr) (files : Files) :
    (b.flushT i lm files).1.pins = b.pins := by
  unfold BPage.flushT
  split
  · split <;> rfl
  · rfl

theorem assignToBlock_pins (b : BPage) (blk : BId) (lm : LogMgr)
    (files : Files) :
    ((b.assignToBlock blk lm files).1 = true →
      (b.assignToBlock blk lm files).2.1.pins = 0) ∧
    ((b.assignToBlock blk lm files).1 = false →
      (b.assignToBlock blk lm files).2.1.pins = b.pins) := by
  unfold BPage.assignToBlock
  cases hr : readF (b.flush lm files).2.2 blk
      { (b.flush lm files).1 with block := some blk }.contents with
  | none =>
    constructor
    · intro h; simp at h
    · intro h
      exact flushT_pins 0 b lm files
  | some pg =>
    constructor
    · intro h; rfl
    · intro h; simp at h

theorem availInv_unpin (m : BufMgrSt) (i : Nat) (hi : i < m.pool.length)
    (hp : 0 < (m.pool.getD i default).pins) (hinv : availInv m) :
    availInv (m.unpin i) := by
  have hu : (m.pool.getD i default).unpin.pins =
      (m.pool.getD i default).pins - 1 := by
    unfold BPage.unpin
    rw [if_pos hp]
  have hset := unpinnedCount_set m.pool i ((m.pool.getD i default).unpin) hi
  rw [hu] at hset
  unfold availInv at hinv ⊢
  unfold BufMgrSt.unpin
  by_cases h1 : (m.pool.getD i default).pins = 1
  · rw [if_neg (by unfold BPage.isPinned; rw [hu, h1]; decide)]
    show m.numAvailable + 1 =
      (unpinnedCount (m.pool.set i (m.pool.getD i default).unpin) : Int)
    rw [hset, if_neg (by omega), if_pos (by omega)]
    omega
  · rw [if_pos (by
      unfold BPage.isPinned
      rw [hu]
      simp only [decide_eq_true_eq]
      omega)]
    show m.numAvailable =
      (unpinnedCount (m.pool.set i (m.pool.getD i default).unpin) : Int)
    rw [hset, if_neg (by omega), if_neg (by omega)]
    omega

theorem tryToPin_existing (m : BufMgrSt) (blk : BId) (i : Nat)
    (hfe : findExisting m.pool blk = some i) :
    m.tryToPin blk = ({ m with
      pool := m.pool.set i (m.pool.getD i default).pin,
      numAvailable := if (m.pool.getD i default).isPinned then m.numAvailable
        else m.numAvailable - 1 }, some i) := by
  unfold BufMgrSt.tryToPin
  rw [hfe]

theorem tryToPin_empty (m : BufMgrSt) (blk : BId)
    (hfe : findExisting m.pool blk = none)
    (hcu : chooseUnpinned m.pool = none) : m.tryToPin blk = (m, none) := by
  unfold BufMgrSt.tryToPin
  rw [hfe, hcu]

theorem tryToPin_assign (m : BufMgrSt) (blk : BId) (i : Nat)
    (hfe : findExisting m.pool blk = none)
    (hcu : chooseUnpinned m.pool = some i) :
    m.tryToPin blk =
      (if ((m.pool.getD i default).assignToBlock blk m.lm m.files).1 = true
       then ({ m with
          pool := m.pool.set i
            ((m.pool.getD i default).assignToBlock blk m.lm m.files).2.1.pin,
          numAvailable := m.numAvailable - 1,
          lm := ((m.pool.getD i default).assignToBlock blk m.lm m.files).2.2.1,
          files := ((m.pool.getD i default).assignToBlock blk
            m.lm m.files).2.2.2 }, some i)
       else ({ m with
          pool := m.pool.set i
            ((m.pool.getD i default).assignToBlock blk m.lm m.files).2.1,
          lm := ((m.pool.getD i default).assignToBlock blk m.lm m.files).2.2.1,
          files := ((m.pool.getD i default).assignToBlock blk
            m.lm m.files).2.2.2 }, none)) := by
  unfold BufMgrSt.tryToPin
  rw [hfe, hcu]

theorem availInv_tryToPin (m : BufMgrSt) (blk : BId) (hinv : availInv m) :
    availInv (m.tryToPin blk).1 := by
  cases hfe : findExisting m.pool blk with
  | some i =>
    obtain ⟨hi, -⟩ := findIdxP_spec _ _ _ hfe
    have hset := unpinnedCount_set m.pool i (m.pool.getD i default).pin hi
    have hpin : (m.pool.getD i default).pin.pins =
        (m.pool.getD i default).pins + 1 := rfl
    rw [hpin] at hset
    rw [if_neg (show ¬((m.pool.getD i default).pins + 1 = 0) by omega)] at hset
    rw [tryToPin_existing m blk i hfe]
    unfold availInv at hinv ⊢
    show (if (m.pool.getD i default).isPinned then m.numAvailable
        else m.numAvailable - 1) =
      (unpinnedCount (m.pool.set i (m.pool.getD i default).pin) : Int)
    by_cases hp : (m.pool.getD i default).pins = 0
    · rw [if_pos hp] at hset
      rw [if_neg (show ¬((m.pool.getD i default).isPinned = true) by
        unfold BPage.isPinned; rw [hp]; decide), hset]
      omega
    · rw [if_neg hp] at hset
      rw [if_pos (show (m.pool.getD i default).isPinned = true by
        unfold BPage.isPinned
        simp only [decide_eq_true_eq]
        omega), hset]
      omega
  | none =>
    cases hcu : chooseUnpinned m.pool with
    | none =>
      rw [tryToPin_empty m blk hfe hcu]
      exact hinv
    | some i =>
      obtain ⟨hi, hup⟩ := findIdxP_spec _ _ _ hcu
      have hp0 : (m.pool.getD i default).pins = 0 := by
        unfold BPage.isPinned at hup
        simp only [Bool.not_eq_true', decide_eq_false_iff_not] at hup
        omega
      have hassign := assignToBlock_pins (m.pool.getD i default) blk m.lm
        m.files
      rw [tryToPin_assign m blk i hfe hcu]
      by_cases ha :
          ((m.pool.getD i default).assignToBlock blk m.lm m.files).1 = true
      · have hz := hassign.1 ha
        have hset := unpinnedCount_set m.pool i
          ((m.pool.getD i default).assignToBlock blk m.lm m.files).2.1.pin hi
        have hpinz : ((m.pool.getD i default).assignToBlock blk
            m.lm m.files).2.1.pin.pins = 1 := by
          show ((m.pool.getD i default).assignToBlock blk
            m.lm m.files).2.1.pins + 1 = 1
          omega
        rw [hpinz] at hset
        rw [if_pos hp0, if_neg (show ¬((1 : Nat) = 0) by omega)] at hset
        rw [if_pos ha]
        unfold availInv at hinv ⊢
        show m.numAvailable - 1 = (unpinnedCount (m.pool.set i
          ((m.pool.getD i default).assignToBlock blk
            m.lm m.files).2.1.pin) : Int)
        rw [hset]
        omega
      · have hz := hassign.2 (by
          cases hb : ((m.pool.getD i default).assignToBlock blk
            m.lm m.files).1
          · rfl
          · exact absurd hb ha)
        have hset := unpinnedCount_set m.pool i
          ((m.pool.getD i default).assignToBlock blk m.lm m.files).2.1 hi
        rw [hz] at hset
        rw [if_pos hp0] at hset
        rw [if_neg ha]
        unfold availInv at hinv ⊢
        show m.numAvailable = (unpinnedCount (m.pool.set i
          ((m.pool.getD i default).assignToBlock blk m.lm m.files).2.1) : Int)
        rw [hset]
        omega

/-- The unpin calls of an operation sequence each target a slot that is
currently pinned, matching an unpin-per-successful-pin discipline. -/
def okOps (m : BufMgrSt) : List BufOp → Prop
  | [] => True
  | op :: rest =>
    (match op with
     | .unpinOp i => i < m.pool.length ∧ 0 < (m.pool.getD i default).pins
     | .pinOp _ => True) ∧ okOps (applyOp m op) rest

theorem unpinnedCount_replicate (bs n : Nat) :
    unpinnedCount (List.replicate n (BPage.new bs)) = n := by
  induction n with
  | zero => rfl
  | succ k ih =>
    rw [List.replicate_succ]
    simp only [unpinnedCount, List.countP_cons] at ih ⊢
    rw [ih]
    simp [BPage.new]

/-- C3, amended: from a fresh pool, under any sequence of pin attempts
and of unpin calls that each target a currently pinned slot,
`num_available` always equals the number of slots with pin count 0. -/
theorem C3_available_inv_amended :
    (∀ bs n lm files, availInv (BufMgrSt.new bs n lm files)) ∧
    (∀ ops m, availInv m → okOps m ops → availInv (applyOps m ops)) := by
  constructor
  · intro bs n lm files
    unfold availInv BufMgrSt.new
    simp [unpinnedCount_replicate]
  · intro ops
    induction ops with
    | nil => intro m h _; exact h
    | cons op rest ih =>
      intro m hinv hok
      have hstep : availInv (applyOp m op) := by
        cases op with
        | pinOp blk => exact availInv_tryToPin m blk hinv
        | unpinOp i => exact availInv_unpin m i hok.1.1 hok.1.2 hinv
      exact ih (applyOp m op) hstep hok.2

theorem C3_available_inv_amended_witness :
    availInv (applyOps (BufMgrSt.new 8 2 logA (fun _ => none))
      [BufOp.pinOp ("d", 0)]) :=
  C3_available_inv_amended.2 [BufOp.pinOp ("d", 0)]
    (BufMgrSt.new 8 2 logA (fun _ => none))
    (C3_available_inv_amended.1 8 2 logA (fun _ => none)) ⟨trivial, trivial⟩

/-- C3 counterexample: from a fresh single-slot pool, a single unpin call
on the already-unpinned slot 0 (pin count 0) drives `num_available` to 2
while only one slot has pin count 0, so `available()` does not equal the
number of unpinned slots. -/
theorem C3_available_inv_counterexample :
    (applyOps (BufMgrSt.new 8 1 logA (fun _ => none))
      [BufOp.unpinOp 0]).numAvailable = 2 ∧
    unpinnedCount (applyOps (BufMgrSt.new 8 1 logA (fun _ => none))
      [BufOp.unpinOp 0]).pool = 1 ∧
    (applyOps (BufMgrSt.new 8 1 logA (fun _ => none))
      [BufOp.unpinOp 0]).numAvailable ≠
      (unpinnedCount (applyOps (BufMgrSt.new 8 1 logA (fun _ => none))
        [BufOp.unpinOp 0]).pool : Int) := by
  refine ⟨by decide, by decide, by decide⟩

/-- The lock table map (`locks: HashMap<BlockId, i32>`): at most one
entry per block, modelled as an association list. -/
abbrev LockMap := List (BId × Int)

/-- `locks.get(&blk)` as an association-list lookup. -/
def lookupL (m : LockMap) (b : BId) : Option Int :=
  (m.find? (fun e => e.1 == b)).map (fun e => e.2)

/-- `LockTable::get_lock_value`: `locks.get(&blk).unwrap_or(&0)`. -/
def getLockValue (m : LockMap) (b : BId) : Int := (lookupL m b).getD 0

/-- `LockTable::has_xlock`: the stored value is negative. -/
def hasXlock (m : LockMap) (b : BId) : Bool := getLockValue m b < 0

/-- `HashMap::insert`: replace the entry for `b`, or add one. -/
def insertL (m : LockMap) (b : BId) (v : Int) : LockMap :=
  (b, v) :: m.filter (fun e => !(e.1 == b))

/-- The tail of `LockTable::slock` after its wait loop has exited (the
loop runs while an exclusive lock exists and the waiter has not timed
out, so on exit `has_xlock → timed out`): if an exclusive lock still
exists return `LockAbortError` (Bool `true`) without touching the map,
otherwise insert the incremented count. -/
def slockExit (m : LockMap) (b : BId) : LockMap × Bool :=
  if hasXlock m b then (m, true)
  else (insertL m b (getLockValue m b + 1), false)

theorem lookupL_insert (m : LockMap) (b : BId) (v : Int) :
    lookupL (insertL m b v) b = some v := by
  unfold lookupL insertL
  rw [List.find?_cons_of_pos _ (by simp)]
  rfl

/-- C4: `slock` fails with `LockAbort` iff, after the wait loop (whose
exit guarantees `has_xlock → timed out`), an exclusive lock (stored
value -1) still exists on the block — hence only after waiting out the
max-wait period; on failure the lock map is left unchanged (the caller
holds no lock); on success the block's count is incremented, with 1
inserted when the block was absent. -/
theorem C4_slock_spec (m : LockMap) (b : BId) (timedOut : Bool)
    (hexit : hasXlock m b = true → timedOut = true)
    (hlegal : ∀ e ∈ m, e.2 = -1 ∨ 0 < e.2) :
    ((slockExit m b).2 = true ↔ timedOut = true ∧ lookupL m b = some (-1)) ∧
    ((slockExit m b).2 = true → (slockExit m b).1 = m) ∧
    ((slockExit m b).2 = false →
      (slockExit m b).1 = insertL m b (getLockValue m b + 1) ∧
      lookupL (slockExit m b).1 b = some (getLockValue m b + 1) ∧
      (lookupL m b = none → lookupL (slockExit m b).1 b = some 1)) := by
  cases hx : hasXlock m b with
  | true =>
    have hv : lookupL m b = some (-1) := by
      unfold hasXlock getLockValue at hx
      unfold lookupL at hx ⊢
      cases hf : m.find? (fun e => e.1 == b) with
      | none =>
        rw [hf] at hx
        simp at hx
      | some e =>
        rw [hf] at hx
        simp only [Option.map_some', Option.getD_some,
          decide_eq_true_eq] at hx
        have hmem := List.mem_of_find?_eq_some hf
        rcases hlegal e hmem with h1 | h1
        · simp [h1]
        · omega
    have heq : slockExit m b = (m, true) := by
      unfold slockExit
      rw [if_pos hx]
    rw [heq]
    refine ⟨⟨fun _ => ⟨hexit hx, hv⟩, fun _ => rfl⟩, fun _ => rfl, ?_⟩
    intro h
    simp at h
  | false =>
    have heq : slockExit m b =
        (insertL m b (getLockValue m b + 1), false) := by
      unfold slockExit
      rw [if_neg (by simp [hx])]
    rw [heq]
    refine ⟨⟨fun h => by simp at h, ?_⟩, fun h => by simp at h, ?_⟩
    · intro ⟨ht, hl⟩
      have hxt : hasXlock m b = true := by
        unfold hasXlock getLockValue
        rw [hl]
        decide
      rw [hx] at hxt
      simp at hxt
    · intro _
      refine ⟨rfl, lookupL_insert m b _, ?_⟩
      intro hnone
      rw [lookupL_insert]
      unfold getLockValue
      rw [hnone]
      norm_num

/-- A concrete lock map with one exclusive lock, used by the witness. -/
def lockM : LockMap := [(("f", 1), -1)]

theorem C4_slock_spec_witness :
    ((slockExit lockM ("f", 1)).2 = true ↔
      true = true ∧ lookupL lockM ("f", 1) = some (-1)) ∧
    ((slockExit lockM ("f", 1)).2 = true →
      (slockExit lockM ("f", 1)).1 = lockM) ∧
    ((slockExit lockM ("f", 1)).2 = false →
      (slockExit lockM ("f", 1)).1 =
        insertL lockM ("f", 1) (getLockValue lockM ("f", 1) + 1) ∧
      lookupL (slockExit lockM ("f", 1)).1 ("f", 1) =
        some (getLockValue lockM ("f", 1) + 1) ∧
      (lookupL lockM ("f", 1) = none →
        lookupL (slockExit lockM ("f", 1)).1 ("f", 1) = some 1)) :=
  C4_slock_spec lockM ("f", 1) true (fun _ => rfl) (by decide)

theorem C2_flush_wal_order_witness :
    ∃ j k : Nat, j < k ∧
      (flushAll 3 [slotA] logA (fun _ => none)).2.2.2[j]? =
        some (FlushEv.logFlush 0 ([slotA].getD 0 default).lsn) ∧
      (flushAll 3 [slotA] logA (fun _ => none)).2.2.2[k]? =
        some (FlushEv.pageWrite 0 ("t", 1)) :=
  C2_flush_wal_order.2.2.2 3 [slotA] logA (fun _ => none) 0 ("t", 1)
    (by norm_num) (by norm_num) (by norm_num [slotA]) (by norm_num [slotA])

end SimpleDb
